import Mathlib

/-!
Shallow embedding of two Dolphin source fragments:

* `src/kitemviews/kitemlistheader.cpp` — the `KItemListHeader` widget:
  column layout (`visibleRoles` + `visibleRolesWidths`), hit-testing
  (`roleIndexAt`), resize-grip detection (`isAboveRoleGrip`), painting
  (`paint`) and the pointer-event interaction state machine.
* `src/views/versioncontrol/kversioncontrolplugin.h` — the
  `KVersionControlPlugin::ItemVersion` enumeration.

`qreal` values (widths, pointer positions) are modelled as exact rationals;
`QHash<QByteArray, qreal>` is modelled as an association list whose lookup
returns the default-constructed value `0` for a missing key, exactly as
`QHash::value` does.
-/

/-- Column identifiers (`QByteArray` role names). -/
abbrev RoleId := String

/-- `QHash<QByteArray, qreal>::value(key)`: the stored value for `key`, or
the default-constructed value `0` when `key` is absent. -/
def hashValue (h : List (RoleId × ℚ)) (k : RoleId) : ℚ :=
  match h.find? (fun p => p.1 == k) with
  | some p => p.2
  | none => 0

/-- The loop of `KItemListHeader::roleIndexAt`: walks the visible roles in
order, incrementing `index` and accumulating the cumulative right edge `x`;
it stops at the first role whose cumulative right edge satisfies
`pos.x() <= x`. -/
def roleIndexAtLoop (widths : List (RoleId × ℚ)) (px : ℚ) :
    List RoleId → ℚ → Int → Int
  | [], _, index => index
  | role :: rest, x, index =>
    let index' := index + 1
    let x' := x + hashValue widths role
    if px ≤ x' then index' else roleIndexAtLoop widths px rest x' index'

/-- `KItemListHeader::roleIndexAt`: starts with `index = -1`, `x = 0` and
runs the loop over the visible roles. -/
def roleIndexAt (roles : List RoleId) (widths : List (RoleId × ℚ)) (px : ℚ) : Int :=
  roleIndexAtLoop widths px roles 0 (-1)

/-- Cumulative width of the first `k` visible columns
(`x`-offset of column `k`). -/
def cumWidth (roles : List RoleId) (widths : List (RoleId × ℚ)) (k : Nat) : ℚ :=
  ((roles.map (hashValue widths)).take k).sum

/-- Total width of all visible columns. -/
def totalWidth (roles : List RoleId) (widths : List (RoleId × ℚ)) : ℚ :=
  (roles.map (hashValue widths)).sum

/-- All widths of the visible columns are non-negative. -/
def nonnegWidths (roles : List RoleId) (widths : List (RoleId × ℚ)) : Prop :=
  ∀ r ∈ roles, 0 ≤ hashValue widths r

instance (roles : List RoleId) (widths : List (RoleId × ℚ)) :
    Decidable (nonnegWidths roles widths) := by
  unfold nonnegWidths; infer_instance

/-- The loop of `KItemListHeader::isAboveRoleGrip`: the right edge of column
`roleIndex`, i.e. the sum of the widths of columns `0..roleIndex` inclusive. -/
def rightEdge (roles : List RoleId) (widths : List (RoleId × ℚ)) (roleIndex : Nat) : ℚ :=
  ((roles.take (roleIndex + 1)).map (hashValue widths)).sum

/-- `KItemListHeader::isAboveRoleGrip`: true iff `pos.x()` lies within the
grip margin to the left of the right edge of column `roleIndex`, inclusive
of the edge itself. -/
def isAboveRoleGrip (roles : List RoleId) (widths : List (RoleId × ℚ))
    (grip : ℚ) (px : ℚ) (roleIndex : Nat) : Bool :=
  decide (rightEdge roles widths roleIndex - grip ≤ px) &&
    decide (px ≤ rightEdge roles widths roleIndex)

section RoleIndexAtLemmas

variable (widths : List (RoleId × ℚ)) (px : ℚ)

/-- The loop result is at least the starting index. -/
theorem roleIndexAtLoop_ge (roles : List RoleId) :
    ∀ (x : ℚ) (index : Int), index ≤ roleIndexAtLoop widths px roles x index := by
  induction roles with
  | nil => intro x index; simp [roleIndexAtLoop]
  | cons r rest ih =>
    intro x index
    simp only [roleIndexAtLoop]
    split
    · omega
    · have := ih (x + hashValue widths r) (index + 1)
      omega

/-- On a non-empty role list the loop result is at least the starting index
plus one. -/
theorem roleIndexAtLoop_ge_succ (r : RoleId) (rest : List RoleId) :
    ∀ (x : ℚ) (index : Int),
      index + 1 ≤ roleIndexAtLoop widths px (r :: rest) x index := by
  intro x index
  simp only [roleIndexAtLoop]
  split
  · omega
  · exact roleIndexAtLoop_ge widths px rest _ _

/-- The loop result is at most the starting index plus the number of
remaining roles. -/
theorem roleIndexAtLoop_le (roles : List RoleId) :
    ∀ (x : ℚ) (index : Int),
      roleIndexAtLoop widths px roles x index ≤ index + roles.length := by
  induction roles with
  | nil => intro x index; simp [roleIndexAtLoop]
  | cons r rest ih =>
    intro x index
    simp only [roleIndexAtLoop, List.length_cons]
    split
    · omega
    · have := ih (x + hashValue widths r) (index + 1)
      omega

end RoleIndexAtLemmas

/-- C4: `roleIndexAt` (the spec's `columnAt`) on an empty visible-column
list returns `-1` ("none") for every pointer position. -/
theorem roleIndexAt_empty (widths : List (RoleId × ℚ)) (px : ℚ) :
    roleIndexAt [] widths px = -1 := rfl

theorem cumWidth_zero (roles : List RoleId) (widths : List (RoleId × ℚ)) :
    cumWidth roles widths 0 = 0 := by
  simp [cumWidth]

theorem cumWidth_cons (r : RoleId) (rest : List RoleId)
    (widths : List (RoleId × ℚ)) (k : Nat) :
    cumWidth (r :: rest) widths (k + 1) =
      hashValue widths r + cumWidth rest widths k := by
  simp [cumWidth]

theorem cumWidth_length (roles : List RoleId) (widths : List (RoleId × ℚ)) :
    cumWidth roles widths roles.length = totalWidth roles widths := by
  unfold cumWidth totalWidth
  rw [show roles.length = (roles.map (hashValue widths)).length from
    (List.length_map _ _).symm, List.take_length]

theorem cumWidth_mono (roles : List RoleId) (widths : List (RoleId × ℚ))
    (hw : nonnegWidths roles widths) {k1 k2 : Nat} (hk : k1 ≤ k2) :
    cumWidth roles widths k1 ≤ cumWidth roles widths k2 := by
  unfold cumWidth
  have hnn : ∀ a ∈ (roles.map (hashValue widths)).take k2, 0 ≤ a := by
    intro a ha
    have hmem : a ∈ roles.map (hashValue widths) := List.take_subset _ _ ha
    rcases List.mem_map.mp hmem with ⟨r, hr, rfl⟩
    exact hw r hr
  calc ((roles.map (hashValue widths)).take k1).sum
      = (((roles.map (hashValue widths)).take k2).take k1).sum := by
        rw [List.take_take, Nat.min_eq_left hk]
    _ ≤ ((roles.map (hashValue widths)).take k2).sum :=
        List.Sublist.sum_le_sum (List.take_sublist _ _) hnn

theorem roleIndexAtLoop_break (widths : List (RoleId × ℚ)) (px : ℚ) :
    ∀ (roles : List RoleId) (i : Nat) (x : ℚ) (index : Int),
      i < roles.length →
      (∀ j, j < i → x + cumWidth roles widths (j + 1) < px) →
      px ≤ x + cumWidth roles widths (i + 1) →
      roleIndexAtLoop widths px roles x index = index + 1 + i := by
  intro roles
  induction roles with
  | nil => intro i x index hi; simp at hi
  | cons r rest ih =>
    intro i x index hi hlt hle
    cases i with
    | zero =>
      have h1 : px ≤ x + hashValue widths r := by
        rw [cumWidth_cons, cumWidth_zero] at hle
        linarith
      simp [roleIndexAtLoop, h1]
    | succ i' =>
      have h0 : x + hashValue widths r < px := by
        have := hlt 0 (Nat.succ_pos i')
        rw [cumWidth_cons, cumWidth_zero] at this
        linarith
      have hrec := ih i' (x + hashValue widths r) (index + 1)
        (by simpa using hi)
        (by
          intro j hj
          have := hlt (j + 1) (by omega)
          rw [cumWidth_cons] at this
          linarith)
        (by
          rw [cumWidth_cons] at hle
          linarith)
      simp only [roleIndexAtLoop]
      rw [if_neg (not_le.mpr h0), hrec]
      push_cast
      ring

theorem roleIndexAtLoop_nobreak (widths : List (RoleId × ℚ)) (px : ℚ) :
    ∀ (roles : List RoleId) (x : ℚ) (index : Int),
      (∀ j, j < roles.length → x + cumWidth roles widths (j + 1) < px) →
      roleIndexAtLoop widths px roles x index = index + roles.length := by
  intro roles
  induction roles with
  | nil => intro x index _; simp [roleIndexAtLoop]
  | cons r rest ih =>
    intro x index h
    have h0 : x + hashValue widths r < px := by
      have := h 0 (Nat.succ_pos _)
      rw [cumWidth_cons, cumWidth_zero] at this
      linarith
    have hrec := ih (x + hashValue widths r) (index + 1) (by
      intro j hj
      have := h (j + 1) (by simpa using hj)
      rw [cumWidth_cons] at this
      linarith)
    simp only [roleIndexAtLoop]
    rw [if_neg (not_le.mpr h0), hrec]
    simp only [List.length_cons]
    omega

theorem roleIndexAt_eq_of (roles : List RoleId) (widths : List (RoleId × ℚ))
    (px : ℚ) (i : Nat) (hi : i < roles.length)
    (hlt : ∀ j, j < i → cumWidth roles widths (j + 1) < px)
    (hle : px ≤ cumWidth roles widths (i + 1)) :
    roleIndexAt roles widths px = i := by
  unfold roleIndexAt
  have h := roleIndexAtLoop_break widths px roles i 0 (-1) hi
    (by simpa using hlt) (by simpa using hle)
  rw [h]
  omega

theorem roleIndexAt_eq_last (roles : List RoleId) (widths : List (RoleId × ℚ))
    (px : ℚ)
    (h : ∀ j, j < roles.length → cumWidth roles widths (j + 1) < px) :
    roleIndexAt roles widths px = (roles.length : Int) - 1 := by
  unfold roleIndexAt
  have hn := roleIndexAtLoop_nobreak widths px roles 0 (-1) (by simpa using h)
  rw [hn]
  omega

theorem roleIndexAtLoop_mono (widths : List (RoleId × ℚ)) {px1 px2 : ℚ}
    (hpx : px1 ≤ px2) :
    ∀ (roles : List RoleId) (x : ℚ) (index : Int),
      roleIndexAtLoop widths px1 roles x index ≤
        roleIndexAtLoop widths px2 roles x index := by
  intro roles
  induction roles with
  | nil => intro x index; simp [roleIndexAtLoop]
  | cons r rest ih =>
    intro x index
    simp only [roleIndexAtLoop]
    by_cases h1 : px1 ≤ x + hashValue widths r
    · rw [if_pos h1]
      by_cases h2 : px2 ≤ x + hashValue widths r
      · rw [if_pos h2]
      · rw [if_neg h2]
        exact roleIndexAtLoop_ge widths px2 rest _ _
    · have h2 : ¬ px2 ≤ x + hashValue widths r := fun h => h1 (hpx.trans h)
      rw [if_neg h1, if_neg h2]
      exact ih _ _

/-- C7: for a fixed ordered column list with non-negative widths, the index
returned by `roleIndexAt` (the spec's `columnAt`) is non-decreasing in the
pointer position. -/
theorem roleIndexAt_mono (roles : List RoleId) (widths : List (RoleId × ℚ))
    (px1 px2 : ℚ) (hw : nonnegWidths roles widths) (hpx : px1 ≤ px2) :
    roleIndexAt roles widths px1 ≤ roleIndexAt roles widths px2 :=
  roleIndexAtLoop_mono widths hpx roles 0 (-1)

/-- Witness for `roleIndexAt_mono` at columns A:50, B:30, C:20 and
pointer positions 49 ≤ 51. -/
theorem roleIndexAt_mono_witness :
    nonnegWidths ["A", "B", "C"] [("A", 50), ("B", 30), ("C", 20)] ∧
      (49 : ℚ) ≤ 51 ∧
      roleIndexAt ["A", "B", "C"] [("A", 50), ("B", 30), ("C", 20)] 49 ≤
        roleIndexAt ["A", "B", "C"] [("A", 50), ("B", 30), ("C", 20)] 51 :=
  ⟨by decide, by decide,
    roleIndexAt_mono ["A", "B", "C"] [("A", 50), ("B", 30), ("C", 20)] 49 51
      (by decide) (by decide)⟩

/-- C1 counterexample: with a single column of width 50 and pointer position
x = 0, `roleIndexAt` returns index 0 although x does not satisfy
cumWidth 0 < x ≤ cumWidth 1, so the unrestricted biconditional of the claim
fails at x = 0. -/
theorem roleIndexAt_interval_counterexample :
    roleIndexAt ["a"] [("a", 50)] 0 = 0 ∧
      ¬ (cumWidth ["a"] [("a", 50)] 0 < 0 ∧
          (0 : ℚ) ≤ cumWidth ["a"] [("a", 50)] 1) := by
  refine ⟨?_, ?_⟩
  · simp [roleIndexAt, roleIndexAtLoop, hashValue]
  · simp [cumWidth, hashValue]

/-- C1 (amended): for non-negative widths and a pointer position inside the
header, 0 < x ≤ total width, `roleIndexAt` returns index i exactly when
(sum of w0..w(i-1)) < x ≤ (sum of w0..wi); in particular a position exactly
on a column boundary resolves to the column ending at that boundary. -/
theorem roleIndexAt_interval_iff (roles : List RoleId)
    (widths : List (RoleId × ℚ)) (px : ℚ) (i : Nat)
    (hw : nonnegWidths roles widths) (h0 : 0 < px)
    (htot : px ≤ totalWidth roles widths) (hi : i < roles.length) :
    roleIndexAt roles widths px = i ↔
      cumWidth roles widths i < px ∧ px ≤ cumWidth roles widths (i + 1) := by
  constructor
  · intro hf
    have hex : ∃ j, px ≤ cumWidth roles widths (j + 1) := by
      refine ⟨roles.length - 1, ?_⟩
      have hlen : roles.length - 1 + 1 = roles.length := by omega
      rw [hlen, cumWidth_length]
      exact htot
    have hspec : px ≤ cumWidth roles widths (Nat.find hex + 1) := Nat.find_spec hex
    have hmin : ∀ j, j < Nat.find hex → cumWidth roles widths (j + 1) < px :=
      fun j hj => not_le.mp (Nat.find_min hex hj)
    have hfind : Nat.find hex < roles.length := by
      have h1 : Nat.find hex ≤ roles.length - 1 := by
        apply Nat.find_min'
        have hlen : roles.length - 1 + 1 = roles.length := by omega
        rw [hlen, cumWidth_length]
        exact htot
      omega
    have heq := roleIndexAt_eq_of roles widths px (Nat.find hex) hfind hmin hspec
    have hEq : i = Nat.find hex := by
      have := hf.symm.trans heq
      exact_mod_cast this
    refine ⟨?_, by rw [hEq]; exact hspec⟩
    rw [hEq]
    rcases Nat.eq_zero_or_pos (Nat.find hex) with h00 | hpos
    · rw [h00, cumWidth_zero]
      exact h0
    · have hj := hmin (Nat.find hex - 1) (by omega)
      have hlen : Nat.find hex - 1 + 1 = Nat.find hex := by omega
      rwa [hlen] at hj
  · intro h
    apply roleIndexAt_eq_of roles widths px i hi
    · intro j hj
      have hle : cumWidth roles widths (j + 1) ≤ cumWidth roles widths i :=
        cumWidth_mono roles widths hw (by omega)
      linarith [h.1]
    · exact h.2

/-- Witness for `roleIndexAt_interval_iff` at columns A:50, B:30, C:20,
pointer position 50 (a boundary) and index 0. -/
theorem roleIndexAt_interval_iff_witness :
    nonnegWidths ["A", "B", "C"] [("A", 50), ("B", 30), ("C", 20)] ∧
      (0 : ℚ) < 50 ∧
      (50 : ℚ) ≤ totalWidth ["A", "B", "C"] [("A", 50), ("B", 30), ("C", 20)] ∧
      0 < (["A", "B", "C"] : List RoleId).length ∧
      (roleIndexAt ["A", "B", "C"] [("A", 50), ("B", 30), ("C", 20)] 50 = 0 ↔
        cumWidth ["A", "B", "C"] [("A", 50), ("B", 30), ("C", 20)] 0 < 50 ∧
          (50 : ℚ) ≤ cumWidth ["A", "B", "C"] [("A", 50), ("B", 30), ("C", 20)] 1) := by
  have htot : (50 : ℚ) ≤ totalWidth ["A", "B", "C"]
      [("A", 50), ("B", 30), ("C", 20)] := by
    simp [totalWidth, hashValue]
    norm_num
  refine ⟨by decide, by decide, htot, by decide, ?_⟩
  exact_mod_cast roleIndexAt_interval_iff ["A", "B", "C"]
    [("A", 50), ("B", 30), ("C", 20)] 50 0 (by decide) (by decide) htot
    (by decide)

/-- C5: for a non-empty column list with non-negative widths, out-of-range
pointer positions clamp: `roleIndexAt` returns the last index for every
x exceeding the total width, and the first index for every x ≤ 0. -/
theorem roleIndexAt_clamps (roles : List RoleId) (widths : List (RoleId × ℚ))
    (px : ℚ) (hne : roles ≠ []) (hw : nonnegWidths roles widths) :
    (totalWidth roles widths < px →
        roleIndexAt roles widths px = (roles.length : Int) - 1) ∧
      (px ≤ 0 → roleIndexAt roles widths px = 0) := by
  constructor
  · intro hgt
    apply roleIndexAt_eq_last
    intro j hj
    have hle : cumWidth roles widths (j + 1) ≤ cumWidth roles widths roles.length :=
      cumWidth_mono roles widths hw (by omega)
    rw [cumWidth_length] at hle
    linarith
  · intro hle
    have hn : 0 < roles.length := List.length_pos.mpr hne
    have h1 : px ≤ cumWidth roles widths 1 := by
      rcases roles with _ | ⟨r, rest⟩
      · exact absurd rfl hne
      · rw [show (1 : Nat) = 0 + 1 from rfl, cumWidth_cons, cumWidth_zero]
        have := hw r (List.mem_cons_self r rest)
        linarith
    have heq := roleIndexAt_eq_of roles widths px 0 hn
      (fun j hj => absurd hj (Nat.not_lt_zero j)) h1
    simpa using heq

/-- Witness for `roleIndexAt_clamps`: with columns A:50, B:30, C:20
(total 100), `roleIndexAt 150 = 2`. -/
theorem roleIndexAt_clamps_witness :
    (["A", "B", "C"] : List RoleId) ≠ [] ∧
      nonnegWidths ["A", "B", "C"] [("A", 50), ("B", 30), ("C", 20)] ∧
      roleIndexAt ["A", "B", "C"] [("A", 50), ("B", 30), ("C", 20)] 150 = 2 := by
  refine ⟨by decide, by decide, ?_⟩
  have h := (roleIndexAt_clamps ["A", "B", "C"] [("A", 50), ("B", 30), ("C", 20)]
    150 (by decide) (by decide)).1 (by
      simp [totalWidth, hashValue]
      norm_num)
  rw [h]
  decide

theorem rightEdge_eq_cumWidth (roles : List RoleId) (widths : List (RoleId × ℚ))
    (i : Nat) :
    rightEdge roles widths i = cumWidth roles widths (i + 1) := by
  unfold rightEdge cumWidth
  rw [List.map_take]

/-- C2: for a valid column index i, `isAboveRoleGrip` returns true exactly
when the pointer position lies in the closed interval
[rightEdge(i) − grip, rightEdge(i)], where rightEdge(i) is the cumulative
width of columns 0..i inclusive. -/
theorem isAboveRoleGrip_iff (roles : List RoleId) (widths : List (RoleId × ℚ))
    (grip px : ℚ) (i : Nat) (hi : i < roles.length) :
    isAboveRoleGrip roles widths grip px i = true ↔
      cumWidth roles widths (i + 1) - grip ≤ px ∧
        px ≤ cumWidth roles widths (i + 1) := by
  unfold isAboveRoleGrip
  rw [rightEdge_eq_cumWidth]
  simp

/-- Witness for `isAboveRoleGrip_iff` with grip margin 4, a first column of
width 50 and pointer position 46. -/
theorem isAboveRoleGrip_iff_witness :
    0 < (["A"] : List RoleId).length ∧
      (isAboveRoleGrip ["A"] [("A", 50)] 4 46 0 = true ↔
        cumWidth ["A"] [("A", 50)] 1 - 4 ≤ 46 ∧
          (46 : ℚ) ≤ cumWidth ["A"] [("A", 50)] 1) :=
  ⟨by decide, isAboveRoleGrip_iff ["A"] [("A", 50)] 4 46 0 (by decide)⟩

/-- The mutable state of `KItemListHeader`: the model pointer (abstracted to
its presence), `m_visibleRoles`, `m_visibleRolesWidths`,
`m_hoveredRoleIndex` and `m_pressedRoleIndex`. -/
structure HeaderState where
  hasModel : Bool
  visibleRoles : List RoleId
  visibleRolesWidths : List (RoleId × ℚ)
  hoveredRoleIndex : Int
  pressedRoleIndex : Int
deriving DecidableEq, Repr

/-- The state established by the `KItemListHeader` constructor. -/
def initialHeaderState : HeaderState :=
  { hasModel := false
    visibleRoles := []
    visibleRolesWidths := []
    hoveredRoleIndex := -1
    pressedRoleIndex := -1 }

/-- The operations that mutate the header state: the setters and the
pointer-event handlers. -/
inductive HeaderEvent where
  | setModel (hasModel : Bool)
  | setVisibleRoles (roles : List RoleId)
  | setVisibleRolesWidths (rolesWidths : List (RoleId × ℚ))
  | mousePress (px : ℚ)
  | mouseRelease
  | mouseMove (px : ℚ)
  | hoverEnter (px : ℚ)
  | hoverLeave
  | hoverMove (px : ℚ)
deriving DecidableEq, Repr

/-- `KItemListHeader::updatePressedRoleIndex`: recompute the pressed index
via `roleIndexAt`; on change, store it and request a redraw (`update()`),
reported in the second component. -/
def updatePressedRoleIndex (s : HeaderState) (px : ℚ) : HeaderState × Bool :=
  let pressedIndex := roleIndexAt s.visibleRoles s.visibleRolesWidths px
  if s.pressedRoleIndex ≠ pressedIndex then
    ({ s with pressedRoleIndex := pressedIndex }, true)
  else
    (s, false)

/-- `KItemListHeader::updateHoveredRoleIndex`: recompute the hovered index
via `roleIndexAt`; on change, store it and request a redraw. -/
def updateHoveredRoleIndex (s : HeaderState) (px : ℚ) : HeaderState × Bool :=
  let hoverIndex := roleIndexAt s.visibleRoles s.visibleRolesWidths px
  if s.hoveredRoleIndex ≠ hoverIndex then
    ({ s with hoveredRoleIndex := hoverIndex }, true)
  else
    (s, false)

/-- One step of the header widget: the effect of each setter or
pointer-event handler on the state, paired with whether a redraw
(`update()`) was requested.  `setModel` only swaps the model;
`setVisibleRoles` and `setVisibleRolesWidths` replace their field and
always request a redraw; the pointer handlers follow the event-handler
bodies in the source (the cursor-shape side effect of `hoverMoveEvent` has
no bearing on the stored state). -/
def headerStep (s : HeaderState) : HeaderEvent → HeaderState × Bool
  | .setModel b => ({ s with hasModel := b }, false)
  | .setVisibleRoles roles => ({ s with visibleRoles := roles }, true)
  | .setVisibleRolesWidths w => ({ s with visibleRolesWidths := w }, true)
  | .mousePress px => updatePressedRoleIndex s px
  | .mouseRelease =>
    if s.pressedRoleIndex ≠ -1 then
      ({ s with pressedRoleIndex := -1 }, true)
    else
      (s, false)
  | .mouseMove px => updatePressedRoleIndex s px
  | .hoverEnter px => updateHoveredRoleIndex s px
  | .hoverLeave =>
    if s.hoveredRoleIndex ≠ -1 then
      ({ s with hoveredRoleIndex := -1 }, true)
    else
      (s, false)
  | .hoverMove px => updateHoveredRoleIndex s px

/-- The state reached from the constructor state by a sequence of
operations. -/
def headerRun (events : List HeaderEvent) : HeaderState :=
  events.foldl (fun s e => (headerStep s e).1) initialHeaderState

/-- An interaction index is "none" (-1) or a valid index into the ordered
column sequence. -/
def validIndex (roles : List RoleId) (i : Int) : Prop :=
  i = -1 ∨ (0 ≤ i ∧ i < roles.length)

instance (roles : List RoleId) (i : Int) : Decidable (validIndex roles i) := by
  unfold validIndex; infer_instance

/-- The C3 invariant: hovered and pressed index are each "none" or a valid
index into the current ordered column sequence. -/
def headerInvariant (s : HeaderState) : Prop :=
  validIndex s.visibleRoles s.hoveredRoleIndex ∧
    validIndex s.visibleRoles s.pressedRoleIndex

instance (s : HeaderState) : Decidable (headerInvariant s) := by
  unfold headerInvariant; infer_instance

/-- The pointer-event handlers among the operations. -/
def isPointerEvent : HeaderEvent → Bool
  | .mousePress _ | .mouseRelease | .mouseMove _
  | .hoverEnter _ | .hoverLeave | .hoverMove _ => true
  | .setModel _ | .setVisibleRoles _ | .setVisibleRolesWidths _ => false

/-- `roleIndexAt` always returns "none" or a valid index for the role list
it was computed against. -/
theorem roleIndexAt_valid (roles : List RoleId) (widths : List (RoleId × ℚ))
    (px : ℚ) : validIndex roles (roleIndexAt roles widths px) := by
  cases roles with
  | nil => exact Or.inl rfl
  | cons r rest =>
    refine Or.inr ⟨?_, ?_⟩
    · have := roleIndexAtLoop_ge_succ widths px r rest 0 (-1)
      unfold roleIndexAt
      omega
    · have := roleIndexAtLoop_le widths px (r :: rest) 0 (-1)
      unfold roleIndexAt
      simp only [List.length_cons] at this ⊢
      omega

theorem updatePressedRoleIndex_invariant (s : HeaderState) (px : ℚ)
    (hs : headerInvariant s) :
    headerInvariant (updatePressedRoleIndex s px).1 := by
  by_cases h : s.pressedRoleIndex ≠ roleIndexAt s.visibleRoles s.visibleRolesWidths px
  · simp only [updatePressedRoleIndex]
    rw [if_pos h]
    exact ⟨hs.1, roleIndexAt_valid _ _ _⟩
  · simp only [updatePressedRoleIndex]
    rw [if_neg h]
    exact hs

theorem updateHoveredRoleIndex_invariant (s : HeaderState) (px : ℚ)
    (hs : headerInvariant s) :
    headerInvariant (updateHoveredRoleIndex s px).1 := by
  by_cases h : s.hoveredRoleIndex ≠ roleIndexAt s.visibleRoles s.visibleRolesWidths px
  · simp only [updateHoveredRoleIndex]
    rw [if_pos h]
    exact ⟨roleIndexAt_valid _ _ _, hs.2⟩
  · simp only [updateHoveredRoleIndex]
    rw [if_neg h]
    exact hs

/-- C3 counterexample: starting from the constructor state, hover over the
third of three columns, then replace the visible columns by a single one;
the hovered index 2 is now neither "none" nor a valid index, so
`setVisibleRoles` does not preserve the claimed invariant. -/
theorem headerInvariant_counterexample :
    ¬ headerInvariant (headerRun
      [.setVisibleRoles ["a", "b", "c"],
       .setVisibleRolesWidths [("a", 0), ("b", 0), ("c", 20)],
       .hoverEnter 1,
       .setVisibleRoles ["a"]]) := by
  have h1 : headerRun
      [.setVisibleRoles ["a", "b", "c"],
       .setVisibleRolesWidths [("a", 0), ("b", 0), ("c", 20)],
       .hoverEnter 1,
       .setVisibleRoles ["a"]] =
      { hasModel := false
        visibleRoles := ["a"]
        visibleRolesWidths := [("a", 0), ("b", 0), ("c", 20)]
        hoveredRoleIndex := 2
        pressedRoleIndex := -1 } := by
    simp +decide [headerRun, headerStep, updateHoveredRoleIndex, roleIndexAt,
      roleIndexAtLoop, hashValue, initialHeaderState]
  rw [h1]
  decide

/-- C3 (amended): the invariant that hovered and pressed index are "none"
or valid is preserved by every pointer-event handler (press, release, move,
hover enter/leave/move); `setVisibleRoles`, however, leaves both indices
unchanged and therefore need not preserve it when the new list is
shorter. -/
theorem pointerEvent_preserves_headerInvariant (s : HeaderState)
    (e : HeaderEvent) (he : isPointerEvent e = true)
    (hs : headerInvariant s) :
    headerInvariant (headerStep s e).1 := by
  cases e with
  | setModel b => simp [isPointerEvent] at he
  | setVisibleRoles roles => simp [isPointerEvent] at he
  | setVisibleRolesWidths w => simp [isPointerEvent] at he
  | mousePress px => exact updatePressedRoleIndex_invariant s px hs
  | mouseRelease =>
    show headerInvariant (if s.pressedRoleIndex ≠ -1 then
      ({ s with pressedRoleIndex := -1 }, true) else (s, false)).1
    by_cases h : s.pressedRoleIndex ≠ -1
    · rw [if_pos h]
      exact ⟨hs.1, Or.inl rfl⟩
    · rw [if_neg h]
      exact hs
  | mouseMove px => exact updatePressedRoleIndex_invariant s px hs
  | hoverEnter px => exact updateHoveredRoleIndex_invariant s px hs
  | hoverLeave =>
    show headerInvariant (if s.hoveredRoleIndex ≠ -1 then
      ({ s with hoveredRoleIndex := -1 }, true) else (s, false)).1
    by_cases h : s.hoveredRoleIndex ≠ -1
    · rw [if_pos h]
      exact ⟨Or.inl rfl, hs.2⟩
    · rw [if_neg h]
      exact hs
  | hoverMove px => exact updateHoveredRoleIndex_invariant s px hs

/-- Witness for `pointerEvent_preserves_headerInvariant` at the constructor
state and a hover-leave event. -/
theorem pointerEvent_preserves_headerInvariant_witness :
    isPointerEvent .hoverLeave = true ∧
      headerInvariant initialHeaderState ∧
      headerInvariant (headerStep initialHeaderState .hoverLeave).1 :=
  ⟨by decide, by decide,
    pointerEvent_preserves_headerInvariant initialHeaderState .hoverLeave
      (by decide) (by decide)⟩

/-- C6: a hover-leave event always resets the hovered index to "none", and
requests a redraw exactly when the prior value was not already "none". -/
theorem hoverLeave_resets_hover (s : HeaderState) :
    (headerStep s .hoverLeave).1.hoveredRoleIndex = -1 ∧
      ((headerStep s .hoverLeave).2 = true ↔ s.hoveredRoleIndex ≠ -1) := by
  by_cases h : s.hoveredRoleIndex = -1 <;>
    simp [headerStep, h]

/-- A `QRectF` (x, y, width, height). -/
structure RectF where
  x : ℚ
  y : ℚ
  w : ℚ
  h : ℚ
deriving DecidableEq, Repr

/-- One drawing delegated to the style engine by `KItemListHeader::paint`:
either a `CE_Header` draw for one role (with its rectangle and order
index) or the final `CE_HeaderEmptyArea` draw. -/
inductive DrawCmd where
  | header (role : RoleId) (rect : RectF) (orderIndex : Nat)
  | emptyArea (rect : RectF)
deriving DecidableEq, Repr

/-- The role-drawing loop of `KItemListHeader::paint`: for each visible
role, a rectangle at the accumulated x-offset with the role's width and
the widget height, then advance x by that width. -/
def paintRolesLoop (widths : List (RoleId × ℚ)) (height : ℚ) :
    List RoleId → ℚ → Nat → List DrawCmd
  | [], _, _ => []
  | role :: rest, x, orderIndex =>
    let roleWidth := hashValue widths role
    DrawCmd.header role ⟨x, 0, roleWidth, height⟩ orderIndex ::
      paintRolesLoop widths height rest (x + roleWidth) (orderIndex + 1)

/-- `KItemListHeader::paint`: returns immediately with no drawing when no
model is set; otherwise draws every visible role in order and then the
empty-area background over the remaining horizontal space. -/
def paintCommands (hasModel : Bool) (roles : List RoleId)
    (widths : List (RoleId × ℚ)) (width height : ℚ) : List DrawCmd :=
  if hasModel then
    paintRolesLoop widths height roles 0 0 ++
      [DrawCmd.emptyArea
        ⟨totalWidth roles widths, 0, width - totalWidth roles widths, height⟩]
  else []

/-- C10: the paint output is empty exactly when no model is set — without a
model nothing at all is rendered, and with a model the output is never
empty (the empty-area background is always drawn). -/
theorem paintCommands_empty_iff_no_model (hasModel : Bool)
    (roles : List RoleId) (widths : List (RoleId × ℚ)) (width height : ℚ) :
    paintCommands hasModel roles widths width height = [] ↔ hasModel = false := by
  cases hasModel <;> simp [paintCommands]

theorem hashValue_missing (widths : List (RoleId × ℚ)) (r : RoleId)
    (hmiss : ∀ p ∈ widths, p.1 ≠ r) : hashValue widths r = 0 := by
  unfold hashValue
  have hnone : widths.find? (fun p => p.1 == r) = none := by
    apply List.find?_eq_none.mpr
    intro p hp
    simpa using hmiss p hp
  rw [hnone]

theorem hashValue_cons_zero (widths : List (RoleId × ℚ)) (r : RoleId)
    (hmiss : ∀ p ∈ widths, p.1 ≠ r) (k : RoleId) :
    hashValue ((r, 0) :: widths) k = hashValue widths k := by
  by_cases hk : r == k
  · have hrk : r = k := by simpa using hk
    subst hrk
    rw [hashValue_missing widths r hmiss]
    unfold hashValue
    rw [List.find?_cons_of_pos _ (by simp)]
  · unfold hashValue
    rw [List.find?_cons_of_neg _ (by simpa using hk)]

theorem roleIndexAtLoop_congr (w1 w2 : List (RoleId × ℚ))
    (hf : hashValue w1 = hashValue w2) (px : ℚ) :
    ∀ (roles : List RoleId) (x : ℚ) (index : Int),
      roleIndexAtLoop w1 px roles x index = roleIndexAtLoop w2 px roles x index := by
  intro roles
  induction roles with
  | nil => intro x index; rfl
  | cons r rest ih =>
    intro x index
    simp only [roleIndexAtLoop, hf, ih]

theorem paintRolesLoop_congr (w1 w2 : List (RoleId × ℚ))
    (hf : hashValue w1 = hashValue w2) (height : ℚ) :
    ∀ (roles : List RoleId) (x : ℚ) (orderIndex : Nat),
      paintRolesLoop w1 height roles x orderIndex =
        paintRolesLoop w2 height roles x orderIndex := by
  intro roles
  induction roles with
  | nil => intro x orderIndex; rfl
  | cons r rest ih =>
    intro x orderIndex
    simp only [paintRolesLoop, hf, ih]

/-- C9: a visible column identifier with no entry in the width mapping is
treated by every layout operation exactly as a column of width 0: its
lookup yields 0, and adding an explicit 0 entry for it changes nothing in
hit-testing (`roleIndexAt`), grip detection (`isAboveRoleGrip`) or painting
(`paint`). -/
theorem missingWidth_defaults_to_zero (widths : List (RoleId × ℚ))
    (r : RoleId) (hmiss : ∀ p ∈ widths, p.1 ≠ r) :
    hashValue widths r = 0 ∧
      (∀ k, hashValue ((r, 0) :: widths) k = hashValue widths k) ∧
      (∀ roles px,
        roleIndexAt roles ((r, 0) :: widths) px = roleIndexAt roles widths px) ∧
      (∀ roles grip px i,
        isAboveRoleGrip roles ((r, 0) :: widths) grip px i =
          isAboveRoleGrip roles widths grip px i) ∧
      (∀ hasModel roles width height,
        paintCommands hasModel roles ((r, 0) :: widths) width height =
          paintCommands hasModel roles widths width height) := by
  have hpt := hashValue_cons_zero widths r hmiss
  have hf : hashValue ((r, 0) :: widths) = hashValue widths := funext hpt
  refine ⟨hashValue_missing widths r hmiss, hpt, ?_, ?_, ?_⟩
  · intro roles px
    exact roleIndexAtLoop_congr _ _ hf px roles 0 (-1)
  · intro roles grip px i
    unfold isAboveRoleGrip rightEdge
    rw [hf]
  · intro hasModel roles width height
    unfold paintCommands totalWidth
    rw [hf, paintRolesLoop_congr _ _ hf height roles 0 0]

/-- Witness for `missingWidth_defaults_to_zero` with the width mapping
holding only role B and the missing role A. -/
theorem missingWidth_defaults_to_zero_witness :
    (∀ p ∈ [(("B" : RoleId), (30 : ℚ))], p.1 ≠ "A") ∧
      hashValue [("B", 30)] "A" = 0 := by
  refine ⟨by decide, ?_⟩
  exact (missingWidth_defaults_to_zero [("B", 30)] "A" (by decide)).1

/-- `KVersionControlPlugin::ItemVersion`: the per-file version-status
classification, with the constructors in the declaration order of the
header. -/
inductive ItemVersion where
  | UnversionedVersion
  | NormalVersion
  | UpdateRequiredVersion
  | LocallyModifiedVersion
  | AddedVersion
  | RemovedVersion
  | ConflictingVersion
  | LocallyModifiedUnstagedVersion
  | IgnoredVersion
  | MissingVersion
deriving DecidableEq, Repr

/-- The numeric value each enumerator takes in the C++ enum (declaration
order, starting at 0). -/
def ItemVersion.toNat : ItemVersion → Nat
  | .UnversionedVersion => 0
  | .NormalVersion => 1
  | .UpdateRequiredVersion => 2
  | .LocallyModifiedVersion => 3
  | .AddedVersion => 4
  | .RemovedVersion => 5
  | .ConflictingVersion => 6
  | .LocallyModifiedUnstagedVersion => 7
  | .IgnoredVersion => 8
  | .MissingVersion => 9

/-- The enumeration in declaration order. -/
def allItemVersions : List ItemVersion :=
  [.UnversionedVersion, .NormalVersion, .UpdateRequiredVersion,
   .LocallyModifiedVersion, .AddedVersion, .RemovedVersion,
   .ConflictingVersion, .LocallyModifiedUnstagedVersion,
   .IgnoredVersion, .MissingVersion]

/-- C8: the version-status classification is exactly the ten listed values
in this order — `allItemVersions` has length ten without duplicates, every
`ItemVersion` appears in it, and its declaration order matches the C++
enumerator values 0..9. -/
theorem itemVersion_enumeration :
    allItemVersions.length = 10 ∧ allItemVersions.Nodup ∧
      (∀ v : ItemVersion, v ∈ allItemVersions) ∧
      allItemVersions.map ItemVersion.toNat = List.range 10 := by
  refine ⟨by decide, by decide, ?_, by decide⟩
  intro v
  cases v <;> decide
